import Mathlib

/-!
Verification development for the multi-car elevator dispatch engine
(`Elevator System/index.js`).

The JavaScript classes `Request`, `Elevator`, `ElevatorController` are
embedded shallowly:

* `Request` and `Elevator` become structures with the same fields;
  JavaScript numbers holding floors / occupancy become `Int`.
* `Request.direction` is stored by the JS constructor but is a pure
  function of the two floors, never mutated afterwards, so it is embedded
  as a derived function.
* The asynchronous drain loop `processRequests` / `moveToFloor` is
  embedded as a small-step machine: each `Op` is the computation the JS
  engine performs between two `await` suspension points (an `addRequest`
  call, dequeuing the head request, one unit floor step including the
  pickup / drop-off that runs when the target floor is reached, and the
  final `isMoving = false`).  `run` executes a list of such operations,
  which models the interleavings the single-threaded event loop allows.
  The busy-wait mutex of `addRequest` only serializes `addRequest`
  against itself; in this interleaving model each `addRequest` is a
  single atomic operation, which is exactly what the mutex guarantees.
* `moveToFloor` is additionally embedded as the big-step function it is
  in the source (the whole `while` loop), for the termination claim.
-/

namespace ElevSys

/-- The frozen `Direction` enumeration of the source. -/
inductive Direction where
  | UP
  | DOWN
  | IDLE
deriving DecidableEq, Repr

/-- The `class Request` of the source: a source floor and a destination floor. -/
structure Request where
  sourceFloor : Int
  destinationFloor : Int
deriving DecidableEq, Repr

/-- The `direction` field the JS constructor stores:
`destinationFloor > sourceFloor ? UP : DOWN`.  It is fixed at
construction and never mutated, hence embedded as a derived function. -/
def Request.direction (r : Request) : Direction :=
  if r.destinationFloor > r.sourceFloor then .UP else .DOWN

/-- The `class Elevator` of the source: the per-car mutable state (the `mutex` field only
serializes `addRequest` calls and carries no other information; in the
atomic-`addRequest` machine below it is always `false` at every
suspension point, so it is omitted). -/
structure Elevator where
  id : Nat
  capacityLimit : Int
  currentFloor : Int
  direction : Direction
  requests : List Request
  passengers : Int
  isMoving : Bool
deriving DecidableEq, Repr

/-- The `Elevator` constructor. -/
def mkElevator (id : Nat) (capacityLimit : Int) : Elevator :=
  { id := id
    capacityLimit := capacityLimit
    currentFloor := 0
    direction := .IDLE
    requests := []
    passengers := 0
    isMoving := false }

/-- The ascending comparator `(a, b) => a.destinationFloor - b.destinationFloor`
passed to the JS sort, as the order it sorts by. -/
def upOrder (a b : Request) : Prop :=
  a.destinationFloor ≤ b.destinationFloor

/-- The descending comparator `(a, b) => b.destinationFloor - a.destinationFloor`,
as the order it sorts by. -/
def downOrder (a b : Request) : Prop :=
  b.destinationFloor ≤ a.destinationFloor

instance : DecidableRel upOrder :=
  fun a b => Int.decLe a.destinationFloor b.destinationFloor

instance : DecidableRel downOrder :=
  fun a b => Int.decLe b.destinationFloor a.destinationFloor

instance : IsTotal Request upOrder :=
  ⟨fun a b => le_total a.destinationFloor b.destinationFloor⟩

instance : IsTrans Request upOrder :=
  ⟨fun _ _ _ hab hbc => le_trans hab hbc⟩

instance : IsTotal Request downOrder :=
  ⟨fun a b => le_total b.destinationFloor a.destinationFloor⟩

instance : IsTrans Request downOrder :=
  ⟨fun _ _ _ hab hbc => le_trans hbc hab⟩

/-- The method `Elevator.optimizeRequests`: sort the queue by destination floor,
ascending when the car travels UP, descending when DOWN (JS
`Array.prototype.sort` with a numeric comparator is a stable sort,
modelled by the stable `List.insertionSort`); when IDLE and the queue is
non-empty, adopt the direction of the head request and re-run.  The
adopted direction is `r.direction`, which is never IDLE, so the JS
re-entry performs exactly one sort; that single recursive call is
inlined here to keep the function structurally recursive (the recursive
description is recovered as `optimizeRequests_idle_cons`). -/
def optimizeRequests (e : Elevator) : Elevator :=
  match e.direction with
  | .UP => { e with requests := e.requests.insertionSort upOrder }
  | .DOWN => { e with requests := e.requests.insertionSort downOrder }
  | .IDLE =>
    match e.requests with
    | [] => e
    | r :: _ =>
      match r.direction with
      | .UP =>
        { e with direction := .UP, requests := e.requests.insertionSort upOrder }
      | .DOWN =>
        { e with direction := .DOWN, requests := e.requests.insertionSort downOrder }
      | .IDLE => e

/-- Control point of the drain coroutine `processRequests`:
`idle` (not draining), `looping` (at the `while` head), `toSource r`
(inside `moveToFloor(request.sourceFloor)`), `toDest r` (passenger
aboard, inside `moveToFloor(request.destinationFloor)`). -/
inductive Phase where
  | idle
  | looping
  | toSource (r : Request)
  | toDest (r : Request)
deriving DecidableEq, Repr

/-- One car together with the control point of its drain coroutine. -/
structure CarState where
  car : Elevator
  phase : Phase
deriving DecidableEq, Repr

/-- A freshly constructed car: floor 0, IDLE, empty queue, no drain. -/
def initCar (id : Nat) (capacityLimit : Int) : CarState :=
  { car := mkElevator id capacityLimit, phase := .idle }

/-- The observable events (`console.log` lines) of pickups, unit-step
floor arrivals and drop-offs. -/
inductive Event where
  | pickup (id : Nat) (floor : Int)
  | arrival (id : Nat) (floor : Int)
  | dropoff (id : Nat) (floor : Int)
deriving DecidableEq, Repr

/-- The method `Elevator.addRequest`: reject with `false` when
`passengers >= capacityLimit`; otherwise push the request, re-sort the
queue, and start the drain coroutine when `isMoving` is not set. -/
def addRequest (s : CarState) (r : Request) : Bool × CarState :=
  if s.car.passengers ≥ s.car.capacityLimit then
    (false, s)
  else
    let car1 := optimizeRequests { s.car with requests := s.car.requests ++ [r] }
    if car1.isMoving then
      (true, { s with car := car1 })
    else
      (true, { car := { car1 with isMoving := true }, phase := .looping })

/-- One unit step of `moveToFloor`:
`currentFloor < floor ? currentFloor += 1 : currentFloor -= 1`. -/
def stepFloor (cur target : Int) : Int :=
  if cur < target then cur + 1 else cur - 1

/-- The operations of the interleaving machine; each is the computation
between two suspension points of the JS event loop. -/
inductive Op where
  | add (r : Request)
  | dequeue
  | move
  | finish
deriving DecidableEq, Repr

/-- One machine step; `none` when the operation is not enabled in the
current phase. -/
def step : Op → CarState → Option (CarState × List Event)
  | .add r, s => some ((addRequest s r).2, [])
  | .dequeue, s =>
    match s.phase, s.car.requests with
    | .looping, r :: rest =>
      some ({ car := { s.car with requests := rest }, phase := .toSource r }, [])
    | _, _ => none
  | .move, s =>
    match s.phase with
    | .toSource r =>
      if s.car.currentFloor = r.sourceFloor then
        some ({ car := { s.car with passengers := s.car.passengers + 1 }
                phase := .toDest r },
          [.pickup s.car.id s.car.currentFloor])
      else
        let f := stepFloor s.car.currentFloor r.sourceFloor
        some ({ car := { s.car with currentFloor := f }, phase := .toSource r },
          [.arrival s.car.id f])
    | .toDest r =>
      if s.car.currentFloor = r.destinationFloor then
        some ({ car :=
                { s.car with
                  passengers := s.car.passengers - 1
                  direction :=
                    match s.car.requests with
                    | [] => Direction.IDLE
                    | q :: _ => q.direction }
                phase := .looping },
          [.dropoff s.car.id s.car.currentFloor])
      else
        let f := stepFloor s.car.currentFloor r.destinationFloor
        some ({ car := { s.car with currentFloor := f }, phase := .toDest r },
          [.arrival s.car.id f])
    | _ => none
  | .finish, s =>
    match s.phase, s.car.requests with
    | .looping, [] =>
      some ({ car := { s.car with isMoving := false }, phase := .idle }, [])
    | _, _ => none

/-- Execute a list of operations, collecting the events. -/
def run : List Op → CarState → Option (CarState × List Event)
  | [], s => some (s, [])
  | op :: ops, s =>
    match step op s with
    | none => none
    | some (s1, evs1) =>
      match run ops s1 with
      | none => none
      | some (s2, evs2) => some (s2, evs1 ++ evs2)

/-- The method `Elevator.moveToFloor` as the big-step function it is in the source:
step one floor at a time until `currentFloor = floor`, logging each
arrival. -/
def moveToFloor (e : Elevator) (floor : Int) : Elevator × List Event :=
  if e.currentFloor = floor then (e, [])
  else
    ((moveToFloor { e with currentFloor := stepFloor e.currentFloor floor } floor).1,
      Event.arrival e.id (stepFloor e.currentFloor floor) ::
        (moveToFloor { e with currentFloor := stepFloor e.currentFloor floor } floor).2)
termination_by (floor - e.currentFloor).natAbs
decreasing_by
  all_goals
    simp [stepFloor]
    split <;> omega

/-- The dispatch distance `Math.abs(elevator.currentFloor - request.sourceFloor)`. -/
def distTo (e : Elevator) (r : Request) : Nat :=
  (e.currentFloor - r.sourceFloor).natAbs

/-- A car the dispatcher may pick: not skipped by the
`passengers >= capacityLimit` guard. -/
def eligible (e : Elevator) : Prop :=
  e.passengers < e.capacityLimit

instance (e : Elevator) : Decidable (eligible e) := by
  unfold eligible; infer_instance

/-- The loop body of `ElevatorController.findOptimalElevator`: walk the
car list keeping the best candidate and its distance (`minDistance`
starts at `Infinity`, modelled as `none`); a strictly smaller distance
replaces the candidate.  The position of each car in the iteration order
is carried alongside it, standing for the object identity the JS loop
tracks. -/
def findOptimalGo (r : Request) :
    List (Nat × Elevator) → Option (Nat × Elevator) → Option Nat → Option (Nat × Elevator)
  | [], best, _ => best
  | (i, e) :: rest, best, minD =>
    if e.passengers ≥ e.capacityLimit then
      findOptimalGo r rest best minD
    else
      let d := distTo e r
      match minD with
      | none => findOptimalGo r rest (some (i, e)) (some d)
      | some m =>
        if d < m then findOptimalGo r rest (some (i, e)) (some d)
        else findOptimalGo r rest best minD

/-- The method `ElevatorController.findOptimalElevator`, returning the chosen car
together with its position in the car list. -/
def findOptimalIdx (cars : List Elevator) (r : Request) : Option (Nat × Elevator) :=
  findOptimalGo r cars.enum none none

/-- The chosen car itself (`null` becomes `none`). -/
def findOptimalElevator (cars : List Elevator) (r : Request) : Option Elevator :=
  (findOptimalIdx cars r).map (fun p => p.2)

/-- The method `ElevatorController.handleRequest`: forward the request to the
optimal car via `addRequest`; when no car qualifies, log
no-available-elevators (`false`) and touch nothing. -/
def handleRequest (cars : List CarState) (r : Request) : List CarState × Bool :=
  match findOptimalIdx (cars.map (fun s => s.car)) r with
  | some (i, _) => (cars.modify (fun s => (addRequest s r).2) i, true)
  | none => (cars, false)

/-- The queue is sorted consistently with the car's direction:
ascending by destination floor when UP, descending when DOWN. -/
def sortedConsistent (e : Elevator) : Prop :=
  match e.direction with
  | .UP => e.requests.Pairwise upOrder
  | .DOWN => e.requests.Pairwise downOrder
  | .IDLE => True

instance (e : Elevator) : Decidable (sortedConsistent e) := by
  unfold sortedConsistent
  cases e.direction <;> dsimp <;> infer_instance

/-- A car already holding as many passengers as its capacity. -/
def fullCar : CarState :=
  { car := { mkElevator 1 5 with passengers := 5 }, phase := .idle }

/-- A car travelling UP whose queued destinations are [5, 2, 9]. -/
def carUp : Elevator :=
  { mkElevator 1 5 with direction := .UP, requests := [⟨0, 5⟩, ⟨0, 2⟩, ⟨0, 9⟩] }

/-- A car travelling DOWN whose queued destinations are [5, 2, 9]. -/
def carDown : Elevator :=
  { mkElevator 1 5 with direction := .DOWN, requests := [⟨0, 5⟩, ⟨0, 2⟩, ⟨0, 9⟩] }

/-- An interleaving in which three further requests arrive while the car
is serving request (1, 3): the car adopts UP and sorts the queue
ascending; when (1, 3) completes, the drain adopts the direction DOWN of
the new head (9, 4) without re-sorting and suspends travelling towards
floor 9. -/
def badOps : List Op :=
  [.add ⟨1, 3⟩, .dequeue, .add ⟨9, 4⟩, .add ⟨0, 6⟩, .add ⟨2, 8⟩,
   .move, .move, .move, .move, .move, .dequeue]

/-- The state `badOps` reaches: direction DOWN, yet the queued
destinations are [6, 8], in ascending order. -/
def badState : CarState :=
  { car :=
      { id := 1
        capacityLimit := 5
        currentFloor := 3
        direction := .DOWN
        requests := [⟨0, 6⟩, ⟨2, 8⟩]
        passengers := 0
        isMoving := true }
    phase := .toSource ⟨9, 4⟩ }

/-- The events emitted along `badOps`. -/
def badEvents : List Event :=
  [.arrival 1 1, .pickup 1 1, .arrival 1 2, .arrival 1 3, .dropoff 1 3]

/-- The end-to-end scenario: a single car at floor 0 receives
Request (0, 5) and drains it to completion. -/
def endToEndOps : List Op :=
  [.add ⟨0, 5⟩, .dequeue, .move, .move, .move, .move, .move, .move, .move, .finish]

/-- A mid-drain state: the car has picked up the passenger of
Request (0, 5) and is about to travel. -/
def midState : CarState :=
  { car :=
      { id := 1
        capacityLimit := 5
        currentFloor := 0
        direction := .UP
        requests := []
        passengers := 1
        isMoving := true }
    phase := .toDest ⟨0, 5⟩ }

/-- The three cars of the dispatch scenario, at floors 0, 3 and 7. -/
def car0 : Elevator := mkElevator 1 5

def car3 : Elevator := { mkElevator 2 5 with currentFloor := 3 }

def car7 : Elevator := { mkElevator 3 5 with currentFloor := 7 }

/-- A request boarding at floor 2. -/
def req2 : Request := ⟨2, 9⟩

/-- Occupancy dictated by the drain's control point: exactly one
passenger is aboard between pickup and drop-off, none otherwise. -/
def phaseOcc : Phase → Int
  | .toDest _ => 1
  | _ => 0

/-- The inductive invariant of the machine: occupancy matches the drain
phase, the `isMoving` flag tracks whether the drain is active, and once
any request was ever accepted the capacity is at least 1. -/
def InvOcc (s : CarState) : Prop :=
  s.car.passengers = phaseOcc s.phase ∧
  ((s.car.isMoving = true) ↔ s.phase ≠ .idle) ∧
  (1 ≤ s.car.capacityLimit ∨ (s.car.requests = [] ∧ s.phase = .idle))

/-- The loop invariant of `findOptimalElevator`: after scanning the
prefix `pre`, `none` means no eligible car was seen, and `some (i, e)`
means `e` sits at position `i` of `pre`, is eligible, has minimal
distance among all eligible cars of `pre`, and strictly beats every
eligible car before it (the tie-break keeps the first). -/
def BestInv (pre : List Elevator) (r : Request) : Option (Nat × Elevator) → Prop
  | none => ∀ (j : Nat) (e2 : Elevator), pre[j]? = some e2 → ¬ eligible e2
  | some (i, e) =>
      pre[i]? = some e ∧ eligible e ∧
      (∀ (j : Nat) (e2 : Elevator), pre[j]? = some e2 → eligible e2 →
        distTo e r ≤ distTo e2 r) ∧
      (∀ (j : Nat) (e2 : Elevator), j < i → pre[j]? = some e2 → eligible e2 →
        distTo e r < distTo e2 r)

/-! ## Helper lemmas -/

theorem sortUp_pairwise (l : List Request) :
    (l.insertionSort upOrder).Pairwise upOrder :=
  List.sorted_insertionSort upOrder l

theorem sortDown_pairwise (l : List Request) :
    (l.insertionSort downOrder).Pairwise downOrder :=
  List.sorted_insertionSort downOrder l

theorem request_direction_ne_idle (r : Request) : r.direction ≠ .IDLE := by
  unfold Request.direction
  split <;> simp

theorem optimizeRequests_up (e : Elevator) (h : e.direction = .UP) :
    optimizeRequests e = { e with requests := e.requests.insertionSort upOrder } := by
  unfold optimizeRequests
  rw [h]

theorem optimizeRequests_down (e : Elevator) (h : e.direction = .DOWN) :
    optimizeRequests e = { e with requests := e.requests.insertionSort downOrder } := by
  unfold optimizeRequests
  rw [h]

/-- The recursive description of the IDLE case in the source: adopt the
direction of the earliest-queued request, then re-apply the ordering. -/
theorem optimizeRequests_idle_cons (e : Elevator) (h : e.direction = .IDLE)
    (r : Request) (rest : List Request) (hq : e.requests = r :: rest) :
    optimizeRequests e = optimizeRequests { e with direction := r.direction } := by
  unfold optimizeRequests
  rw [h, hq]
  rcases hr : r.direction with _ | _ | _
  · simp [hq, hr]
  · simp [hq, hr]
  · exact absurd hr (request_direction_ne_idle r)

/-- After the reorder step the queue is sorted consistently with the
direction then in force, whatever the starting state. -/
theorem optimizeRequests_sortedConsistent (e : Elevator) :
    sortedConsistent (optimizeRequests e) := by
  rcases hd : e.direction with _ | _ | _
  · rw [optimizeRequests_up e hd]
    unfold sortedConsistent
    simpa [hd] using sortUp_pairwise e.requests
  · rw [optimizeRequests_down e hd]
    unfold sortedConsistent
    simpa [hd] using sortDown_pairwise e.requests
  · rcases hq : e.requests with _ | ⟨r, rest⟩
    · have he : optimizeRequests e = e := by
        unfold optimizeRequests
        rw [hd, hq]
      rw [he]
      unfold sortedConsistent
      rw [hd]
      trivial
    · rw [optimizeRequests_idle_cons e hd r rest hq]
      rcases hr : r.direction with _ | _ | _
      · rw [optimizeRequests_up _ rfl]
        unfold sortedConsistent
        simpa using sortUp_pairwise _
      · rw [optimizeRequests_down _ rfl]
        unfold sortedConsistent
        simpa using sortDown_pairwise _
      · exact absurd hr (request_direction_ne_idle r)

/-! ## Claims -/

/-- C7: for every Request with `sourceFloor ≠ destinationFloor`, the
derived direction is UP iff `destinationFloor > sourceFloor`, and DOWN
otherwise; floors and direction are fixed at construction (the
direction is a pure function of the two floor fields). -/
theorem C7_request_direction (r : Request) (_h : r.sourceFloor ≠ r.destinationFloor) :
    (r.direction = .UP ↔ r.destinationFloor > r.sourceFloor) ∧
    (¬ r.destinationFloor > r.sourceFloor → r.direction = .DOWN) := by
  unfold Request.direction
  constructor
  · split <;> simp_all
  · intro hn
    split <;> simp_all

theorem C7_request_direction_witness :
    ((Request.mk 5 2).sourceFloor ≠ (Request.mk 5 2).destinationFloor) ∧
    (((Request.mk 5 2).direction = .UP ↔
        (Request.mk 5 2).destinationFloor > (Request.mk 5 2).sourceFloor) ∧
      (¬ (Request.mk 5 2).destinationFloor > (Request.mk 5 2).sourceFloor →
        (Request.mk 5 2).direction = .DOWN)) :=
  ⟨by decide, C7_request_direction ⟨5, 2⟩ (by decide)⟩

/-- C10: constructing a Request with equal floors is not rejected (the
constructor performs no validation, it is a total function of the two
integers) and the equal-floor case falls into the `else` branch of the
ternary, so the derived direction is DOWN. -/
theorem C10_equal_floor_request (f : Int) :
    (Request.mk f f).sourceFloor = f ∧ (Request.mk f f).destinationFloor = f ∧
    (Request.mk f f).direction = .DOWN := by
  refine ⟨rfl, rfl, ?_⟩
  simp [Request.direction]

/-- C3: `addRequest` on a car with `passengers ≥ capacityLimit` returns
`false` and leaves the whole car state (queue, occupancy, direction,
current floor, drain phase) unchanged; the rejection is a returned
boolean, not a thrown error (the embedding is a total function into
`Bool × CarState`). -/
theorem C3_addRequest_at_capacity (s : CarState) (r : Request)
    (h : s.car.passengers ≥ s.car.capacityLimit) :
    addRequest s r = (false, s) := by
  unfold addRequest
  simp [h]

theorem C3_addRequest_at_capacity_witness :
    fullCar.car.passengers ≥ fullCar.car.capacityLimit ∧
    addRequest fullCar ⟨0, 5⟩ = (false, fullCar) :=
  ⟨by decide, C3_addRequest_at_capacity fullCar ⟨0, 5⟩ (by decide)⟩

/-- C2: the queue-reordering step sorts ascending by destination under
UP, descending under DOWN, and under IDLE first adopts the direction of
the earliest-queued request and then applies the corresponding sort;
with destinations [5, 2, 9] the UP order is [2, 5, 9] and the DOWN
order is [9, 5, 2]. -/
theorem C2_optimizeRequests (e : Elevator) :
    (e.direction = .UP →
      (optimizeRequests e).requests.Pairwise upOrder ∧
        (optimizeRequests e).requests.Perm e.requests) ∧
    (e.direction = .DOWN →
      (optimizeRequests e).requests.Pairwise downOrder ∧
        (optimizeRequests e).requests.Perm e.requests) ∧
    (e.direction = .IDLE → ∀ r rest, e.requests = r :: rest →
      (optimizeRequests e).direction = r.direction ∧
        optimizeRequests e = optimizeRequests { e with direction := r.direction }) := by
  refine ⟨fun h => ?_, fun h => ?_, fun h r rest hq => ?_⟩
  · rw [optimizeRequests_up e h]
    exact ⟨sortUp_pairwise e.requests, List.perm_insertionSort upOrder e.requests⟩
  · rw [optimizeRequests_down e h]
    exact ⟨sortDown_pairwise e.requests, List.perm_insertionSort downOrder e.requests⟩
  · refine ⟨?_, optimizeRequests_idle_cons e h r rest hq⟩
    rw [optimizeRequests_idle_cons e h r rest hq]
    rcases hr : r.direction with _ | _ | _
    · rw [optimizeRequests_up _ rfl]
    · rw [optimizeRequests_down _ rfl]
    · exact absurd hr (request_direction_ne_idle r)

/-- C5 is false as stated: after serving a request the drain adopts the
next head's direction without re-sorting the remaining queue.  Along the
explicit, genuinely interleavable operation sequence `badOps` the car
reaches a state whose direction is DOWN while the queued destinations
are [6, 8], ascending. -/
theorem C5_counterexample :
    run badOps (initCar 1 5) = some (badState, badEvents) ∧
    ¬ sortedConsistent badState.car :=
  ⟨by decide, by decide⟩

/-- Moving the `isMoving` flag does not affect queue consistency. -/
theorem sortedConsistent_isMoving (e : Elevator) (b : Bool) :
    sortedConsistent { e with isMoving := b } ↔ sortedConsistent e :=
  Iff.rfl

/-- C5 amended: immediately after every accepted `addRequest` (the
enqueue-and-reorder step) the queue is sorted consistently with the
direction then in force; the sortedness invariant is not maintained
across drain steps, whose direction update does not re-sort (see the
counterexample). -/
theorem C5_addRequest_sorted (s : CarState) (r : Request)
    (h : (addRequest s r).1 = true) :
    sortedConsistent (addRequest s r).2.car := by
  by_cases hcap : s.car.passengers ≥ s.car.capacityLimit
  · exfalso
    unfold addRequest at h
    rw [if_pos hcap] at h
    simp at h
  · unfold addRequest
    rw [if_neg hcap]
    dsimp only
    split
    · exact optimizeRequests_sortedConsistent _
    · exact (sortedConsistent_isMoving _ _).mpr (optimizeRequests_sortedConsistent _)

theorem C5_addRequest_sorted_witness :
    (addRequest (initCar 1 5) ⟨3, 1⟩).1 = true ∧
    sortedConsistent (addRequest (initCar 1 5) ⟨3, 1⟩).2.car :=
  ⟨by decide, C5_addRequest_sorted (initCar 1 5) ⟨3, 1⟩ (by decide)⟩

/-- C6: a single car of capacity 5 starting at floor 0, given
Request (0, 5) and drained to completion, emits pickup at floor 0,
arrivals at floors 1 through 5 and drop-off at floor 5, and ends with
direction IDLE, occupancy 0, at floor 5 with an empty queue and the
drain finished. -/
theorem C6_end_to_end :
    run endToEndOps (initCar 1 5) =
      some ({ car :=
                { id := 1
                  capacityLimit := 5
                  currentFloor := 5
                  direction := .IDLE
                  requests := []
                  passengers := 0
                  isMoving := false }
              phase := .idle },
        [.pickup 1 0, .arrival 1 1, .arrival 1 2, .arrival 1 3, .arrival 1 4,
         .arrival 1 5, .dropoff 1 5]) := by
  decide

theorem C2_optimizeRequests_witness :
    ((optimizeRequests carUp).requests.map (fun r => r.destinationFloor) = [2, 5, 9] ∧
      (optimizeRequests carDown).requests.map (fun r => r.destinationFloor) = [9, 5, 2]) ∧
    ((optimizeRequests carUp).requests.Pairwise upOrder ∧
      (optimizeRequests carUp).requests.Perm carUp.requests) :=
  ⟨by decide, (C2_optimizeRequests carUp).1 rfl⟩

/-- Unfolding `moveToFloor` when the car is already at the target. -/
theorem moveToFloor_at_target (e : Elevator) (floor : Int)
    (h : e.currentFloor = floor) : moveToFloor e floor = (e, []) := by
  rw [moveToFloor.eq_def, if_pos h]

/-- The full trace of `moveToFloor`, by induction on the distance: the
result is the car moved to the target floor, and the event trace is one
arrival per unit step at consecutive floors approaching the target. -/
theorem moveToFloor_trace (n : Nat) :
    ∀ (e : Elevator) (floor : Int), (floor - e.currentFloor).natAbs = n →
      moveToFloor e floor =
        ({ e with currentFloor := floor },
          (List.range n).map
            (fun (k : Nat) => Event.arrival e.id
              (e.currentFloor + ((k : Int) + 1) *
                (if e.currentFloor < floor then 1 else -1)))) := by
  induction n with
  | zero =>
    intro e floor h
    have hf : floor = e.currentFloor := by omega
    subst hf
    rw [moveToFloor_at_target e _ rfl]
    simp
  | succ n ih =>
    intro e floor h
    have hne : e.currentFloor ≠ floor := by omega
    rw [moveToFloor.eq_def, if_neg hne]
    have hstep :
        (floor - ({ e with currentFloor := stepFloor e.currentFloor floor }).currentFloor).natAbs
          = n := by
      simp only [stepFloor]
      split <;> omega
    rw [ih _ floor hstep]
    rw [Prod.mk.injEq]
    refine ⟨rfl, ?_⟩
    rw [List.range_succ_eq_map, List.map_cons, List.map_map]
    have hhead :
        Event.arrival e.id (stepFloor e.currentFloor floor) =
          Event.arrival e.id
            (e.currentFloor + (((0 : Nat) : Int) + 1) *
              (if e.currentFloor < floor then 1 else -1)) := by
      simp only [stepFloor, Event.arrival.injEq]
      refine ⟨trivial, ?_⟩
      split <;> omega
    rw [← hhead]
    congr 1
    apply List.map_congr_left
    intro k hk
    rw [List.mem_range] at hk
    simp only [stepFloor, Function.comp, Event.arrival.injEq]
    refine ⟨trivial, ?_⟩
    split_ifs <;> push_cast <;> omega

/-- C9: `moveToFloor` terminates, and its whole behaviour is the closed
form proved here: the returned car is the input car moved to the target
floor (all other fields unchanged), and the event trace is exactly one
arrival per unit of distance, at consecutive floors
`currentFloor ± 1, currentFloor ± 2, …, floor`, approaching the target —
so every unit step changes `currentFloor` by exactly one toward the
target and the remaining distance strictly decreases at every step,
reaching zero after `|floor - currentFloor|` steps. -/
theorem C9_moveToFloor (e : Elevator) (floor : Int) :
    (moveToFloor e floor).1 = { e with currentFloor := floor } ∧
    (moveToFloor e floor).2 =
      (List.range (floor - e.currentFloor).natAbs).map
        (fun (k : Nat) => Event.arrival e.id
          (e.currentFloor + ((k : Int) + 1) *
            (if e.currentFloor < floor then 1 else -1))) := by
  have h := moveToFloor_trace ((floor - e.currentFloor).natAbs) e floor rfl
  exact ⟨congrArg Prod.fst h, congrArg Prod.snd h⟩

/-! ## Occupancy invariant (C4) -/

theorem optimizeRequests_passengers (e : Elevator) :
    (optimizeRequests e).passengers = e.passengers := by
  unfold optimizeRequests
  repeat' split
  all_goals rfl

theorem optimizeRequests_capacityLimit (e : Elevator) :
    (optimizeRequests e).capacityLimit = e.capacityLimit := by
  unfold optimizeRequests
  repeat' split
  all_goals rfl

theorem optimizeRequests_isMoving (e : Elevator) :
    (optimizeRequests e).isMoving = e.isMoving := by
  unfold optimizeRequests
  repeat' split
  all_goals rfl

/-- An `addRequest` preserves the machine invariant and the capacity. -/
theorem addRequest_inv (s : CarState) (r : Request) (hiv : InvOcc s) :
    InvOcc (addRequest s r).2 ∧
      (addRequest s r).2.car.capacityLimit = s.car.capacityLimit := by
  obtain ⟨h1, h2, h3⟩ := hiv
  by_cases hcap : s.car.passengers ≥ s.car.capacityLimit
  · simp only [addRequest, if_pos hcap]
    exact ⟨⟨h1, h2, h3⟩, by trivial⟩
  · have hp0 : 0 ≤ phaseOcc s.phase := by
      cases s.phase <;> simp [phaseOcc]
    have hcap1 : 1 ≤ s.car.capacityLimit := by
      rw [h1] at hcap
      omega
    simp only [addRequest, if_neg hcap]
    by_cases hmov :
        (optimizeRequests { s.car with requests := s.car.requests ++ [r] }).isMoving
    · simp only [if_pos hmov]
      refine ⟨⟨?_, ?_, Or.inl ?_⟩, ?_⟩
      · rw [optimizeRequests_passengers]
        exact h1
      · rw [optimizeRequests_isMoving]
        exact h2
      · rw [optimizeRequests_capacityLimit]
        exact hcap1
      · rw [optimizeRequests_capacityLimit]
    · simp only [if_neg hmov]
      have hidle : s.phase = .idle := by
        rw [optimizeRequests_isMoving] at hmov
        by_contra hne
        exact hmov (h2.mpr hne)
      refine ⟨⟨?_, ?_, Or.inl ?_⟩, ?_⟩
      · show (optimizeRequests _).passengers = phaseOcc .looping
        rw [optimizeRequests_passengers, h1, hidle]
        simp [phaseOcc]
      · simp
      · show 1 ≤ (optimizeRequests _).capacityLimit
        rw [optimizeRequests_capacityLimit]
        exact hcap1
      · show (optimizeRequests _).capacityLimit = _
        rw [optimizeRequests_capacityLimit]

/-- Every enabled machine step preserves the invariant and capacity. -/
theorem step_preserves_inv (op : Op) (s s2 : CarState) (evs : List Event)
    (h : step op s = some (s2, evs)) (hiv : InvOcc s) :
    InvOcc s2 ∧ s2.car.capacityLimit = s.car.capacityLimit := by
  obtain ⟨h1, h2, h3⟩ := hiv
  cases op
  case add r =>
    simp only [step, Option.some.injEq, Prod.mk.injEq] at h
    rw [← h.1]
    exact addRequest_inv s r ⟨h1, h2, h3⟩
  case dequeue =>
    rcases hp : s.phase with _ | _ | r0 | r0 <;>
      rcases hq : s.car.requests with _ | ⟨r, rest⟩ <;>
        simp only [step, hp, hq, Option.some.injEq, Prod.mk.injEq] at h
    all_goals try exact Option.noConfusion h
    rw [← h.1]
    have hmv : s.car.isMoving = true := h2.mpr (by simp [hp])
    rw [hp] at h1 h3
    refine ⟨⟨by simpa [phaseOcc] using h1, by simp [hmv], ?_⟩, rfl⟩
    rcases h3 with hge | ⟨_, hctr⟩
    · exact Or.inl hge
    · cases hctr
  case move =>
    rcases hp : s.phase with _ | _ | r0 | r0 <;> simp only [step, hp] at h
    all_goals try exact Option.noConfusion h
    · rw [hp] at h1 h2 h3
      by_cases hc : s.car.currentFloor = r0.sourceFloor
      · rw [if_pos hc] at h
        simp only [Option.some.injEq, Prod.mk.injEq] at h
        rw [← h.1]
        refine ⟨⟨?_, by simpa using h2.mpr (by simp), ?_⟩, rfl⟩
        · simp only [phaseOcc] at h1 ⊢
          omega
        · rcases h3 with hge | ⟨_, hctr⟩
          · exact Or.inl hge
          · cases hctr
      · rw [if_neg hc] at h
        simp only [Option.some.injEq, Prod.mk.injEq] at h
        rw [← h.1]
        refine ⟨⟨by simpa [phaseOcc] using h1, by simpa using h2.mpr (by simp), ?_⟩, rfl⟩
        rcases h3 with hge | ⟨_, hctr⟩
        · exact Or.inl hge
        · cases hctr
    · rw [hp] at h1 h2 h3
      by_cases hc : s.car.currentFloor = r0.destinationFloor
      · rw [if_pos hc] at h
        simp only [Option.some.injEq, Prod.mk.injEq] at h
        rw [← h.1]
        refine ⟨⟨?_, by simpa using h2.mpr (by simp), ?_⟩, rfl⟩
        · simp only [phaseOcc] at h1 ⊢
          omega
        · rcases h3 with hge | ⟨_, hctr⟩
          · exact Or.inl hge
          · cases hctr
      · rw [if_neg hc] at h
        simp only [Option.some.injEq, Prod.mk.injEq] at h
        rw [← h.1]
        refine ⟨⟨by simpa [phaseOcc] using h1, by simpa using h2.mpr (by simp), ?_⟩, rfl⟩
        rcases h3 with hge | ⟨_, hctr⟩
        · exact Or.inl hge
        · cases hctr
  case finish =>
    rcases hp : s.phase with _ | _ | r0 | r0 <;>
      rcases hq : s.car.requests with _ | ⟨r, rest⟩ <;>
        simp only [step, hp, hq, Option.some.injEq, Prod.mk.injEq] at h
    all_goals try exact Option.noConfusion h
    rw [← h.1]
    rw [hp] at h1
    refine ⟨⟨by simpa [phaseOcc] using h1, by simp, Or.inr ⟨rfl, rfl⟩⟩, rfl⟩

/-- Running any operation sequence preserves the invariant and capacity. -/
theorem run_inv (ops : List Op) :
    ∀ (s0 s : CarState) (evs : List Event),
      run ops s0 = some (s, evs) → InvOcc s0 →
        InvOcc s ∧ s.car.capacityLimit = s0.car.capacityLimit := by
  induction ops with
  | nil =>
    intro s0 s evs h h0
    simp only [run, Option.some.injEq, Prod.mk.injEq] at h
    rw [← h.1]
    exact ⟨h0, rfl⟩
  | cons op ops ih =>
    intro s0 s evs h h0
    simp only [run] at h
    rcases hstep : step op s0 with _ | ⟨s1, evs1⟩ <;> rw [hstep] at h <;>
      dsimp only at h
    · exact Option.noConfusion h
    · rcases hrun : run ops s1 with _ | ⟨s2, evs2⟩ <;> rw [hrun] at h <;>
        dsimp only at h
      · exact Option.noConfusion h
      · simp only [Option.some.injEq, Prod.mk.injEq] at h
        obtain ⟨hpre, hcap⟩ := step_preserves_inv op s0 s1 evs1 hstep h0
        obtain ⟨hfin, hcap2⟩ := ih s1 s2 evs2 hrun hpre
        rw [← h.1]
        exact ⟨hfin, by rw [hcap2, hcap]⟩

theorem initCar_inv (id : Nat) (cap : Int) : InvOcc (initCar id cap) := by
  refine ⟨rfl, by simp [initCar, mkElevator], Or.inr ⟨rfl, rfl⟩⟩

/-- C4: starting from a freshly constructed car of nonnegative capacity,
after any sequence of `addRequest` calls interleaved with the induced
drain steps, the occupancy is never negative and never exceeds the
capacity (which itself never changes). -/
theorem C4_occupancy_invariant (id : Nat) (cap : Int) (ops : List Op)
    (s : CarState) (evs : List Event) (hcap : 0 ≤ cap)
    (hrun : run ops (initCar id cap) = some (s, evs)) :
    0 ≤ s.car.passengers ∧ s.car.passengers ≤ s.car.capacityLimit ∧
      s.car.capacityLimit = cap := by
  obtain ⟨⟨h1, _, h3⟩, hcl⟩ := run_inv ops (initCar id cap) s evs hrun (initCar_inv id cap)
  have hcl2 : s.car.capacityLimit = cap := hcl
  refine ⟨?_, ?_, hcl2⟩
  · rw [h1]
    cases s.phase <;> simp [phaseOcc]
  · rw [h1]
    rcases h3 with hge | ⟨_, hidle⟩
    · cases s.phase <;> simp [phaseOcc] <;> omega
    · rw [hidle]
      simp only [phaseOcc]
      omega

theorem C4_occupancy_invariant_witness :
    0 ≤ midState.car.passengers ∧
      midState.car.passengers ≤ midState.car.capacityLimit ∧
      midState.car.capacityLimit = 5 :=
  C4_occupancy_invariant 1 5 [.add ⟨0, 5⟩, .dequeue, .move] midState
    [.pickup 1 0] (by decide) (by decide)

/-! ## Dispatcher selection (C1, C8) -/

theorem lt_length_of_get_some {α : Type} {l : List α} {j : Nat} {a : α}
    (h : l[j]? = some a) : j < l.length := by
  rcases List.getElem?_eq_some_iff.mp h with ⟨hj, _⟩
  exact hj

/-- Looking up a position in `pre ++ [c]` yields either a position of
`pre` or the new last element. -/
theorem snoc_get_cases {α : Type} (pre : List α) (c : α) (j : Nat) (a : α)
    (h : (pre ++ [c])[j]? = some a) :
    (j < pre.length ∧ pre[j]? = some a) ∨ (j = pre.length ∧ a = c) := by
  rcases Nat.lt_trichotomy j pre.length with hlt | heq | hgt
  · exact Or.inl ⟨hlt, by rwa [List.getElem?_append_left hlt] at h⟩
  · subst heq
    rw [List.getElem?_concat_length] at h
    injection h with h2
    exact Or.inr ⟨rfl, h2.symm⟩
  · exfalso
    rw [List.getElem?_eq_none_iff.mpr (by simp; omega)] at h
    exact Option.noConfusion h

theorem BestInv_snoc_ineligible (pre : List Elevator) (r : Request) (c : Elevator)
    (best : Option (Nat × Elevator)) (h : BestInv pre r best) (hc : ¬ eligible c) :
    BestInv (pre ++ [c]) r best := by
  cases best with
  | none =>
    simp only [BestInv] at h ⊢
    intro j e2 hj
    rcases snoc_get_cases pre c j e2 hj with ⟨_, hg⟩ | ⟨_, hec⟩
    · exact h j e2 hg
    · rw [hec]
      exact hc
  | some p =>
    obtain ⟨i, e⟩ := p
    simp only [BestInv] at h ⊢
    obtain ⟨hg, he, hmin, hfirst⟩ := h
    have hi : i < pre.length := lt_length_of_get_some hg
    refine ⟨by rw [List.getElem?_append_left hi]; exact hg, he, ?_, ?_⟩
    · intro j e2 hj he2
      rcases snoc_get_cases pre c j e2 hj with ⟨_, hgj⟩ | ⟨_, hec⟩
      · exact hmin j e2 hgj he2
      · exact absurd he2 (by rw [hec]; exact hc)
    · intro j e2 hjil hj he2
      rcases snoc_get_cases pre c j e2 hj with ⟨_, hgj⟩ | ⟨_, hec⟩
      · exact hfirst j e2 hjil hgj he2
      · exact absurd he2 (by rw [hec]; exact hc)

theorem BestInv_snoc_keep (pre : List Elevator) (r : Request) (c : Elevator)
    (i : Nat) (b : Elevator) (h : BestInv pre r (some (i, b)))
    (hd : distTo b r ≤ distTo c r) :
    BestInv (pre ++ [c]) r (some (i, b)) := by
  simp only [BestInv] at h ⊢
  obtain ⟨hg, he, hmin, hfirst⟩ := h
  have hi : i < pre.length := lt_length_of_get_some hg
  refine ⟨by rw [List.getElem?_append_left hi]; exact hg, he, ?_, ?_⟩
  · intro j e2 hj he2
    rcases snoc_get_cases pre c j e2 hj with ⟨_, hgj⟩ | ⟨_, hec⟩
    · exact hmin j e2 hgj he2
    · rw [hec]
      exact hd
  · intro j e2 hjil hj he2
    rcases snoc_get_cases pre c j e2 hj with ⟨_, hgj⟩ | ⟨heq, _⟩
    · exact hfirst j e2 hjil hgj he2
    · omega

theorem BestInv_snoc_new_none (pre : List Elevator) (r : Request) (c : Elevator)
    (h : BestInv pre r none) (hc : eligible c) :
    BestInv (pre ++ [c]) r (some (pre.length, c)) := by
  simp only [BestInv] at h ⊢
  refine ⟨List.getElem?_concat_length pre c, hc, ?_, ?_⟩
  · intro j e2 hj he2
    rcases snoc_get_cases pre c j e2 hj with ⟨_, hgj⟩ | ⟨_, hec⟩
    · exact absurd he2 (h j e2 hgj)
    · rw [hec]
  · intro j e2 hjil hj he2
    rcases snoc_get_cases pre c j e2 hj with ⟨_, hgj⟩ | ⟨heq, _⟩
    · exact absurd he2 (h j e2 hgj)
    · omega

theorem BestInv_snoc_new_some (pre : List Elevator) (r : Request) (c : Elevator)
    (i : Nat) (b : Elevator) (h : BestInv pre r (some (i, b))) (hc : eligible c)
    (hd : distTo c r < distTo b r) :
    BestInv (pre ++ [c]) r (some (pre.length, c)) := by
  simp only [BestInv] at h ⊢
  obtain ⟨hg, he, hmin, hfirst⟩ := h
  have hi : i < pre.length := lt_length_of_get_some hg
  refine ⟨List.getElem?_concat_length pre c, hc, ?_, ?_⟩
  · intro j e2 hj he2
    rcases snoc_get_cases pre c j e2 hj with ⟨_, hgj⟩ | ⟨_, hec⟩
    · exact le_of_lt (lt_of_lt_of_le hd (hmin j e2 hgj he2))
    · rw [hec]
  · intro j e2 hjil hj he2
    rcases snoc_get_cases pre c j e2 hj with ⟨_, hgj⟩ | ⟨heq, _⟩
    · exact lt_of_lt_of_le hd (hmin j e2 hgj he2)
    · omega

/-- The scan of `findOptimalGo` over the remaining cars keeps `BestInv`. -/
theorem findOptimalGo_spec (r : Request) (rem : List Elevator) :
    ∀ (pre : List Elevator) (best : Option (Nat × Elevator)),
      BestInv pre r best →
      BestInv (pre ++ rem) r
        (findOptimalGo r (rem.enumFrom pre.length) best
          (best.map (fun p => distTo p.2 r))) := by
  induction rem with
  | nil =>
    intro pre best h
    simpa [findOptimalGo] using h
  | cons c rest ih =>
    intro pre best h
    rw [List.enumFrom_cons]
    by_cases hc : c.passengers ≥ c.capacityLimit
    · have hcel : ¬ eligible c := by
        unfold eligible
        omega
      simp only [findOptimalGo, if_pos hc]
      have hres := ih (pre ++ [c]) best (BestInv_snoc_ineligible pre r c best h hcel)
      simpa using hres
    · have hcel : eligible c := by
        unfold eligible
        omega
      cases best with
      | none =>
        simp only [findOptimalGo, if_neg hc, Option.map_none']
        have hres := ih (pre ++ [c]) (some (pre.length, c))
          (BestInv_snoc_new_none pre r c h hcel)
        simpa using hres
      | some p =>
        obtain ⟨i, b⟩ := p
        simp only [findOptimalGo, if_neg hc, Option.map_some']
        by_cases hd : distTo c r < distTo b r
        · rw [if_pos hd]
          have hres := ih (pre ++ [c]) (some (pre.length, c))
            (BestInv_snoc_new_some pre r c i b h hcel hd)
          simpa using hres
        · rw [if_neg hd]
          have hres := ih (pre ++ [c]) (some (i, b))
            (BestInv_snoc_keep pre r c i b h (not_lt.mp hd))
          simpa using hres

theorem findOptimalIdx_spec (cars : List Elevator) (r : Request) :
    BestInv cars r (findOptimalIdx cars r) := by
  have h := findOptimalGo_spec r cars [] none (by intro j e2 hj; simp at hj)
  simpa [findOptimalIdx, List.enum] using h

/-- C1: whenever `findOptimalElevator` (hence `handleRequest`) selects a
car, that car is eligible (occupancy strictly below capacity), its
distance `|currentFloor - sourceFloor|` is minimal among all eligible
cars, and every eligible car earlier in the iteration order has strictly
larger distance — ties go to the first car scanned. -/
theorem C1_nearest_car (cars : List Elevator) (r : Request) (e : Elevator)
    (h : findOptimalElevator cars r = some e) :
    ∃ i : Nat, cars[i]? = some e ∧ eligible e ∧
      (∀ (j : Nat) (e2 : Elevator), cars[j]? = some e2 → eligible e2 →
        distTo e r ≤ distTo e2 r) ∧
      (∀ (j : Nat) (e2 : Elevator), j < i → cars[j]? = some e2 → eligible e2 →
        distTo e r < distTo e2 r) := by
  have hs := findOptimalIdx_spec cars r
  unfold findOptimalElevator at h
  rcases hidx : findOptimalIdx cars r with _ | ⟨i, b⟩ <;> rw [hidx] at h hs
  · exact Option.noConfusion h
  · simp only [Option.map_some'] at h
    injection h with hbe
    subst hbe
    obtain ⟨h1, h2, h3, h4⟩ := hs
    exact ⟨i, h1, h2, h3, h4⟩

theorem C1_nearest_car_witness :
    findOptimalElevator [car0, car3, car7] req2 = some car3 ∧
    (∃ i : Nat, [car0, car3, car7][i]? = some car3 ∧ eligible car3 ∧
      (∀ (j : Nat) (e2 : Elevator), [car0, car3, car7][j]? = some e2 →
        eligible e2 → distTo car3 req2 ≤ distTo e2 req2) ∧
      (∀ (j : Nat) (e2 : Elevator), j < i → [car0, car3, car7][j]? = some e2 →
        eligible e2 → distTo car3 req2 < distTo e2 req2)) :=
  ⟨by decide, C1_nearest_car [car0, car3, car7] req2 car3 (by decide)⟩

/-- C8: when every car is at or over capacity, `handleRequest` reports
the request unserved (`false`), forwards it to no car, queues nothing,
and returns the car list unchanged; the underlying selection yields
`none`. -/
theorem C8_no_car_available (cars : List CarState) (r : Request)
    (h : ∀ s ∈ cars, s.car.passengers ≥ s.car.capacityLimit) :
    handleRequest cars r = (cars, false) ∧
    findOptimalElevator (cars.map (fun s => s.car)) r = none := by
  have hnone : findOptimalIdx (cars.map (fun s => s.car)) r = none := by
    rcases hidx : findOptimalIdx (cars.map (fun s => s.car)) r with _ | ⟨i, b⟩
    · exact hidx
    · exfalso
      have hs := findOptimalIdx_spec (cars.map (fun s => s.car)) r
      rw [hidx] at hs
      obtain ⟨hg, he, _, _⟩ := hs
      have hmem : b ∈ cars.map (fun s => s.car) := List.getElem?_mem hg
      rcases List.mem_map.mp hmem with ⟨s0, hs0, hb⟩
      have hfull := h s0 hs0
      rw [hb] at hfull
      unfold eligible at he
      omega
  constructor
  · unfold handleRequest
    rw [hnone]
  · unfold findOptimalElevator
    rw [hnone]
    rfl

theorem C8_no_car_available_witness :
    handleRequest [fullCar] ⟨0, 5⟩ = ([fullCar], false) ∧
    findOptimalElevator ([fullCar].map (fun s => s.car)) ⟨0, 5⟩ = none :=
  C8_no_car_available [fullCar] ⟨0, 5⟩ (by decide)

end ElevSys
